import Mathlib

set_option maxRecDepth 8000

/-!
Verification of the CAI MCP bug-fix script (`fix_cai_mcp_bug.py`).

The script locates an installed `cai/repl/commands/mcp.py` file among the
site-package directories, backs it up (at most once), and performs a literal
find-and-replace of `'server.params.get('` by `'getattr(server.params, '`,
then re-reads the file and recounts occurrences.

Strings are modelled as `List Char`; `str.count` and `str.replace` are
modelled (for non-empty needles, the only case the script uses) by
fuel-structural recursions so that every definition evaluates by `decide`.
The filesystem is modelled as a partial map from paths to file contents.
-/

/-- Fuel-based greedy, left-to-right, non-overlapping occurrence counter.
Models Python's `str.count` for a non-empty needle; the fuel is always
instantiated with the length of the scanned string, which suffices. -/
def coAux (needle : List Char) : Nat → List Char → Nat
  | _, [] => 0
  | 0, _ :: _ => 0
  | fuel + 1, c :: rest =>
    if needle.isPrefixOf (c :: rest) && !needle.isEmpty then
      coAux needle fuel (List.drop (needle.length - 1) rest) + 1
    else
      coAux needle fuel rest

/-- Number of greedy non-overlapping occurrences of `needle` in `s`
(Python `s.count(needle)` for non-empty `needle`). -/
def countOccs (needle s : List Char) : Nat := coAux needle s.length s

/-- Fuel-based greedy, left-to-right, non-overlapping replace-all.
Models Python's `str.replace` for a non-empty needle. -/
def raAux (needle repl : List Char) : Nat → List Char → List Char
  | _, [] => []
  | 0, c :: rest => c :: rest
  | fuel + 1, c :: rest =>
    if needle.isPrefixOf (c :: rest) && !needle.isEmpty then
      repl ++ raAux needle repl fuel (List.drop (needle.length - 1) rest)
    else
      c :: raAux needle repl fuel rest

/-- Replace every greedy non-overlapping occurrence of `needle` in `s` by
`repl` (Python `s.replace(needle, repl)` for non-empty `needle`). -/
def replaceAll (needle repl s : List Char) : List Char := raAux needle repl s.length s

/-- `x` is a leading segment of `y`. -/
def IsPre (x y : List Char) : Prop := ∃ w, y = x ++ w

/-- `x` is a trailing segment of `y`. -/
def IsSuf (x y : List Char) : Prop := ∃ w, y = w ++ x

/-- `n` occurs as a contiguous segment somewhere in `s`. -/
def HasOcc (n s : List Char) : Prop := ∃ t u, s = t ++ n ++ u

theorem coAux_congr (f₁ : Nat) : ∀ (s : List Char) (f₂ : Nat) (n : List Char),
    s.length ≤ f₁ → s.length ≤ f₂ → coAux n f₁ s = coAux n f₂ s := by
  induction f₁ with
  | zero =>
    intro s f₂ n h1 _
    have hs : s = [] := List.eq_nil_of_length_eq_zero (Nat.le_zero.mp h1)
    subst hs
    cases f₂ <;> simp [coAux]
  | succ f ih =>
    intro s f₂ n h1 h2
    cases s with
    | nil => cases f₂ <;> simp [coAux]
    | cons c rest =>
      cases f₂ with
      | zero => simp at h2
      | succ k =>
        simp only [coAux]
        by_cases hb : (n.isPrefixOf (c :: rest) && !n.isEmpty) = true
        · rw [if_pos hb, if_pos hb]
          have hd1 : (List.drop (n.length - 1) rest).length ≤ f := by
            have := List.length_drop (n.length - 1) rest
            simp at h1
            omega
          have hd2 : (List.drop (n.length - 1) rest).length ≤ k := by
            have := List.length_drop (n.length - 1) rest
            simp at h2
            omega
          rw [ih (List.drop (n.length - 1) rest) k n hd1 hd2]
        · rw [if_neg hb, if_neg hb]
          exact ih rest k n (by simpa using h1) (by simpa using h2)

theorem countOccs_nil (n : List Char) : countOccs n [] = 0 := rfl

theorem countOccs_cons (n : List Char) (c : Char) (rest : List Char) :
    countOccs n (c :: rest) =
      if n.isPrefixOf (c :: rest) && !n.isEmpty then
        countOccs n (List.drop (n.length - 1) rest) + 1
      else
        countOccs n rest := by
  show coAux n (rest.length + 1) (c :: rest) = _
  simp only [coAux]
  by_cases hb : (n.isPrefixOf (c :: rest) && !n.isEmpty) = true
  · rw [if_pos hb, if_pos hb]
    have hd : (List.drop (n.length - 1) rest).length ≤ rest.length := by
      have := List.length_drop (n.length - 1) rest
      omega
    rw [coAux_congr rest.length (List.drop (n.length - 1) rest)
      (List.drop (n.length - 1) rest).length n hd le_rfl]
    rfl
  · rw [if_neg hb, if_neg hb]
    rfl

theorem raAux_congr (f₁ : Nat) : ∀ (s : List Char) (f₂ : Nat) (n r : List Char),
    s.length ≤ f₁ → s.length ≤ f₂ → raAux n r f₁ s = raAux n r f₂ s := by
  induction f₁ with
  | zero =>
    intro s f₂ n r h1 _
    have hs : s = [] := List.eq_nil_of_length_eq_zero (Nat.le_zero.mp h1)
    subst hs
    cases f₂ <;> simp [raAux]
  | succ f ih =>
    intro s f₂ n r h1 h2
    cases s with
    | nil => cases f₂ <;> simp [raAux]
    | cons c rest =>
      cases f₂ with
      | zero => simp at h2
      | succ k =>
        simp only [raAux]
        by_cases hb : (n.isPrefixOf (c :: rest) && !n.isEmpty) = true
        · rw [if_pos hb, if_pos hb]
          have hd1 : (List.drop (n.length - 1) rest).length ≤ f := by
            have := List.length_drop (n.length - 1) rest
            simp at h1
            omega
          have hd2 : (List.drop (n.length - 1) rest).length ≤ k := by
            have := List.length_drop (n.length - 1) rest
            simp at h2
            omega
          rw [ih (List.drop (n.length - 1) rest) k n r hd1 hd2]
        · rw [if_neg hb, if_neg hb]
          rw [ih rest k n r (by simpa using h1) (by simpa using h2)]

theorem replaceAll_nil (n r : List Char) : replaceAll n r [] = [] := rfl

theorem replaceAll_cons (n r : List Char) (c : Char) (rest : List Char) :
    replaceAll n r (c :: rest) =
      if n.isPrefixOf (c :: rest) && !n.isEmpty then
        r ++ replaceAll n r (List.drop (n.length - 1) rest)
      else
        c :: replaceAll n r rest := by
  show raAux n r (rest.length + 1) (c :: rest) = _
  simp only [raAux]
  by_cases hb : (n.isPrefixOf (c :: rest) && !n.isEmpty) = true
  · rw [if_pos hb, if_pos hb]
    have hd : (List.drop (n.length - 1) rest).length ≤ rest.length := by
      have := List.length_drop (n.length - 1) rest
      omega
    rw [raAux_congr rest.length (List.drop (n.length - 1) rest)
      (List.drop (n.length - 1) rest).length n r hd le_rfl]
    rfl
  · rw [if_neg hb, if_neg hb]
    rfl

theorem isPre_iff : ∀ (x y : List Char), x.isPrefixOf y = true ↔ IsPre x y := by
  intro x
  induction x with
  | nil =>
    intro y
    constructor
    · intro _
      exact ⟨y, rfl⟩
    · intro _
      cases y <;> rfl
  | cons a x' ih =>
    intro y
    cases y with
    | nil =>
      constructor
      · intro h
        simp [List.isPrefixOf] at h
      · rintro ⟨w, hw⟩
        exact absurd hw (by simp)
    | cons b y' =>
      constructor
      · intro h
        simp only [List.isPrefixOf, Bool.and_eq_true, beq_iff_eq] at h
        obtain ⟨hab, h2⟩ := h
        obtain ⟨w, hw⟩ := (ih y').mp h2
        refine ⟨w, ?_⟩
        subst hab
        rw [hw]
        rfl
      · rintro ⟨w, hw⟩
        rw [List.cons_append] at hw
        injection hw with h1 h2
        simp only [List.isPrefixOf, Bool.and_eq_true, beq_iff_eq]
        exact ⟨h1.symm, (ih y').mpr ⟨w, h2⟩⟩

theorem isPre_length {x y : List Char} (h : IsPre x y) : x.length ≤ y.length := by
  obtain ⟨w, rfl⟩ := h
  simp

theorem isPre_cons_iff {a b : Char} {x y : List Char} :
    IsPre (a :: x) (b :: y) ↔ a = b ∧ IsPre x y := by
  constructor
  · rintro ⟨w, hw⟩
    rw [List.cons_append] at hw
    injection hw with h1 h2
    exact ⟨h1.symm, ⟨w, h2⟩⟩
  · rintro ⟨hab, w, hw⟩
    refine ⟨w, ?_⟩
    subst hab
    rw [hw]
    rfl

theorem isPre_nil_right {x : List Char} (h : IsPre x []) : x = [] := by
  obtain ⟨w, hw⟩ := h
  exact (List.append_eq_nil.mp hw.symm).1

theorem take_len_append : ∀ (x w : List Char), List.take x.length (x ++ w) = x := by
  intro x w
  induction x with
  | nil => rfl
  | cons a x' ih => simp [ih]

theorem drop_len_append : ∀ (x w : List Char), List.drop x.length (x ++ w) = w := by
  intro x w
  induction x with
  | nil => rfl
  | cons a x' ih => simp [ih]

theorem isPre_eq_take {x y : List Char} (h : IsPre x y) : x = List.take x.length y := by
  obtain ⟨w, rfl⟩ := h
  rw [take_len_append]

theorem isSuf_length {x y : List Char} (h : IsSuf x y) : x.length ≤ y.length := by
  obtain ⟨w, rfl⟩ := h
  simp

theorem isSuf_eq_drop {x y : List Char} (h : IsSuf x y) : x = List.drop (y.length - x.length) y := by
  obtain ⟨w, rfl⟩ := h
  have hl : (w ++ x).length - x.length = w.length := by simp
  rw [hl, drop_len_append]

theorem isSuf_cons {x y : List Char} (c : Char) (h : IsSuf x y) : IsSuf x (c :: y) := by
  obtain ⟨w, rfl⟩ := h
  exact ⟨c :: w, rfl⟩

theorem isSuf_refl (x : List Char) : IsSuf x x := ⟨[], rfl⟩

theorem isSuf_drop (k : Nat) (s : List Char) : IsSuf (List.drop k s) s :=
  ⟨List.take k s, (List.take_append_drop k s).symm⟩

theorem drop_append_len : ∀ (x : List Char) (k : Nat) (w : List Char),
    List.drop (x.length + k) (x ++ w) = List.drop k w := by
  intro x
  induction x with
  | nil =>
    intro k w
    simp
  | cons a x' ih =>
    intro k w
    have h1 : (a :: x').length + k = (x'.length + k) + 1 := by
      simp [List.length_cons]
      omega
    rw [h1, List.cons_append, List.drop_succ_cons]
    exact ih k w

theorem isSuf_of_isSuf_le {s₁ s₂ L : List Char} (h1 : IsSuf s₁ L) (h2 : IsSuf s₂ L)
    (hle : s₁.length ≤ s₂.length) : IsSuf s₁ s₂ := by
  obtain ⟨w2, rfl⟩ := h2
  obtain ⟨w1, hw1⟩ := h1
  have hlen : w2.length + s₂.length = w1.length + s₁.length := by
    have h3 := congrArg List.length hw1
    simpa using h3
  have h3 : List.drop w1.length (w1 ++ s₁) = s₁ := drop_len_append _ _
  rw [← hw1] at h3
  have h4 : w1.length = w2.length + (w1.length - w2.length) := by omega
  rw [h4, drop_append_len] at h3
  rw [← h3]
  exact isSuf_drop _ _

theorem hasOcc_of_isPre {n s : List Char} (h : IsPre n s) : HasOcc n s := by
  obtain ⟨w, rfl⟩ := h
  exact ⟨[], w, by simp⟩

theorem hasOcc_cons_iff {n : List Char} {c : Char} {s : List Char} :
    HasOcc n (c :: s) ↔ IsPre n (c :: s) ∨ HasOcc n s := by
  constructor
  · rintro ⟨t, u, ht⟩
    cases t with
    | nil =>
      left
      exact ⟨u, by simpa using ht⟩
    | cons a t' =>
      right
      rw [List.append_assoc, List.cons_append] at ht
      injection ht with h1 h2
      exact ⟨t', u, by rw [h2, List.append_assoc]⟩
  · rintro (⟨w, hw⟩ | ⟨t, u, ht⟩)
    · exact ⟨[], w, by simpa using hw⟩
    · exact ⟨c :: t, u, by rw [ht]; rfl⟩

theorem hasOcc_append_right {n y : List Char} (x : List Char) (h : HasOcc n y) :
    HasOcc n (x ++ y) := by
  obtain ⟨t, u, rfl⟩ := h
  exact ⟨x ++ t, u, by simp⟩

theorem hasOcc_cons {n s : List Char} (c : Char) (h : HasOcc n s) : HasOcc n (c :: s) := by
  simpa using hasOcc_append_right [c] h

theorem hasOcc_drop {n s : List Char} (k : Nat) (h : HasOcc n (List.drop k s)) : HasOcc n s := by
  have h2 := hasOcc_append_right (List.take k s) h
  rwa [List.take_append_drop] at h2

theorem hasOcc_nil {n : List Char} (hn : n ≠ []) : ¬ HasOcc n [] := by
  rintro ⟨t, u, ht⟩
  have h2 := ht.symm
  rw [List.append_assoc] at h2
  rcases List.append_eq_nil.mp h2 with ⟨-, h3⟩
  exact hn (List.append_eq_nil.mp h3).1

theorem isPre_append_cases : ∀ (x n y : List Char), IsPre n (x ++ y) →
    IsPre n x ∨ (IsPre x n ∧ IsPre (List.drop x.length n) y) := by
  intro x
  induction x with
  | nil =>
    intro n y h
    right
    exact ⟨⟨n, rfl⟩, by simpa using h⟩
  | cons a x' ih =>
    intro n y h
    cases n with
    | nil =>
      left
      exact ⟨a :: x', rfl⟩
    | cons b n' =>
      have h' : b = a ∧ IsPre n' (x' ++ y) := by
        rw [List.cons_append] at h
        exact isPre_cons_iff.mp h
      obtain ⟨hb, h2⟩ := h'
      rcases ih n' y h2 with h3 | ⟨h3, h4⟩
      · left
        subst hb
        exact isPre_cons_iff.mpr ⟨rfl, h3⟩
      · right
        refine ⟨?_, by simpa using h4⟩
        subst hb
        exact isPre_cons_iff.mpr ⟨rfl, h3⟩

theorem hasOcc_append_cases : ∀ (x n y : List Char), HasOcc n (x ++ y) →
    HasOcc n x ∨ HasOcc n y ∨
      ∃ x2, x2 ≠ [] ∧ IsSuf x2 x ∧ IsPre x2 n ∧ IsPre (List.drop x2.length n) y := by
  intro x
  induction x with
  | nil =>
    intro n y h
    right
    left
    simpa using h
  | cons a x' ih =>
    intro n y h
    rw [List.cons_append] at h
    rcases hasOcc_cons_iff.mp h with h1 | h1
    · have h1' : IsPre n ((a :: x') ++ y) := by rwa [List.cons_append]
      rcases isPre_append_cases (a :: x') n y h1' with h2 | ⟨h2, h3⟩
      · left
        exact hasOcc_of_isPre h2
      · right
        right
        exact ⟨a :: x', by simp, isSuf_refl _, h2, h3⟩
    · rcases ih n y h1 with h2 | h2 | ⟨x2, hne, hsuf, hpre, hdrop⟩
      · left
        exact hasOcc_cons a h2
      · right
        left
        exact h2
      · right
        right
        exact ⟨x2, hne, isSuf_cons a hsuf, hpre, hdrop⟩

theorem countOccs_eq_zero_iff {n : List Char} (hn : n ≠ []) :
    ∀ s, countOccs n s = 0 ↔ ¬ HasOcc n s := by
  intro s
  induction s with
  | nil =>
    rw [countOccs_nil]
    simp [hasOcc_nil hn]
  | cons c rest ih =>
    rw [countOccs_cons]
    rcases Bool.eq_false_or_eq_true (n.isPrefixOf (c :: rest) && !n.isEmpty) with hb | hb
    · rw [if_pos hb]
      have h1 : n.isPrefixOf (c :: rest) = true := (Bool.and_eq_true _ _ |>.mp hb).1
      have hocc : HasOcc n (c :: rest) := hasOcc_of_isPre ((isPre_iff _ _).mp h1)
      constructor
      · intro h
        exact absurd h (Nat.succ_ne_zero _)
      · intro h
        exact absurd hocc h
    · rw [if_neg (by simp [hb])]
      rw [ih]
      constructor
      · intro h h2
        rcases hasOcc_cons_iff.mp h2 with h3 | h3
        · have hp : n.isPrefixOf (c :: rest) = true := (isPre_iff _ _).mpr h3
          have hne : n.isEmpty = false := by
            cases n with
            | nil => exact absurd rfl hn
            | cons _ _ => rfl
          rw [hp, hne] at hb
          simp at hb
        · exact h h3
      · intro h
        exact fun h2 => h (hasOcc_cons c h2)

theorem replaceAll_of_no_occ {n r : List Char} : ∀ s, ¬ HasOcc n s → replaceAll n r s = s := by
  intro s
  induction s with
  | nil =>
    intro _
    exact replaceAll_nil n r
  | cons c rest ih =>
    intro h
    rcases Bool.eq_false_or_eq_true (n.isPrefixOf (c :: rest) && !n.isEmpty) with hb | hb
    · exfalso
      have h1 : n.isPrefixOf (c :: rest) = true := (Bool.and_eq_true _ _ |>.mp hb).1
      exact h (hasOcc_of_isPre ((isPre_iff _ _).mp h1))
    · rw [replaceAll_cons, if_neg (by simp [hb])]
      rw [ih (fun h2 => h (hasOcc_cons c h2))]

/-- The bad literal the script searches for (`'server.params.get('`). -/
def badLit : List Char := "server.params.get(".toList

/-- The replacement literal the script inserts (`'getattr(server.params, '`). -/
def replLit : List Char := "getattr(server.params, ".toList

/-- The corrected literal the script counts during post-write verification
(`'getattr(server.params,'`). -/
def verifyLit : List Char := "getattr(server.params,".toList

theorem badLit_ne_nil : badLit ≠ [] := by decide

theorem badLit_length : badLit.length = 18 := by decide

theorem replLit_length : replLit.length = 23 := by decide

theorem verifyLit_length : verifyLit.length = 22 := by decide

theorem badLit_isEmpty : badLit.isEmpty = false := by decide

theorem verifyLit_isEmpty : verifyLit.isEmpty = false := by decide

theorem verifyLit_ne_nil : verifyLit ≠ [] := by decide

/-- `replLit` is `verifyLit` followed by a single space. -/
theorem replLit_eq : replLit = verifyLit ++ [' '] := by decide

/-- Tail of `verifyLit` after its head `'g'`. -/
def vTail : List Char := "etattr(server.params,".toList

theorem verifyLit_cons : verifyLit = 'g' :: vTail := by decide

theorem vTail_length : vTail.length = 21 := by decide

theorem vTail_eq_drop : vTail = List.drop 1 verifyLit := by decide

/-- Tail of `badLit` after its head `'s'`. -/
def bTail : List Char := "erver.params.get(".toList

theorem badLit_cons : badLit = 's' :: bTail := by decide

theorem bTail_eq_drop : bTail = List.drop 1 badLit := by decide

/-- No non-empty suffix of the replacement literal is a leading segment of the
bad literal: the two cannot overlap across a replacement boundary. -/
theorem factA : ∀ k, k < 19 → 0 < k →
    List.take k badLit ≠ List.drop (23 - k) replLit := by decide

/-- No non-empty proper trailing segment of the bad literal is a leading
segment of the replacement literal. -/
theorem factB : ∀ j, j < 18 → 0 < j →
    (List.drop j badLit).isPrefixOf replLit = false := by decide

/-- The verification literal has no non-trivial border: no proper trailing
segment of it equals the corresponding leading segment. -/
theorem factC : ∀ j, j < 22 → 0 < j →
    List.drop j verifyLit ≠ List.take (22 - j) verifyLit := by decide

/-- No non-empty proper trailing segment of the verification literal is a
leading segment of the replacement literal. -/
theorem factD : ∀ j, j < 22 → 0 < j →
    (List.drop j verifyLit).isPrefixOf replLit = false := by decide

theorem countOccs_bad_replLit : countOccs badLit replLit = 0 := by decide

theorem replLit_no_bad : ¬ HasOcc badLit replLit :=
  (countOccs_eq_zero_iff badLit_ne_nil replLit).mp countOccs_bad_replLit

theorem isPre_dropBad_nil {j : Nat} (hj : j < 18)
    (h : IsPre (List.drop j badLit) ([] : List Char)) : False := by
  have h2 := isPre_nil_right h
  have hd : (List.drop j badLit).length = 18 - j := by
    rw [List.length_drop, badLit_length]
  rw [h2] at hd
  simp at hd
  omega

/-- If a proper trailing segment of the bad literal is a leading segment of a
replaced string, it was already a leading segment of the original string. -/
theorem dropBad_pre_replaceAll : ∀ (fuel : Nat) (s : List Char) (j : Nat),
    s.length ≤ fuel → 0 < j → j < 18 →
    IsPre (List.drop j badLit) (replaceAll badLit replLit s) →
    IsPre (List.drop j badLit) s := by
  intro fuel
  induction fuel with
  | zero =>
    intro s j hs hj1 hj2 hpre
    have hnil : s = [] := List.eq_nil_of_length_eq_zero (Nat.le_zero.mp hs)
    subst hnil
    rw [replaceAll_nil] at hpre
    exact absurd hpre (fun h => isPre_dropBad_nil hj2 h)
  | succ f ih =>
    intro s j hs hj1 hj2 hpre
    cases s with
    | nil =>
      rw [replaceAll_nil] at hpre
      exact absurd hpre (fun h => isPre_dropBad_nil hj2 h)
    | cons c rest =>
      rcases Bool.eq_false_or_eq_true (badLit.isPrefixOf (c :: rest) && !badLit.isEmpty)
        with hb | hb
      · rw [replaceAll_cons, if_pos hb] at hpre
        rcases isPre_append_cases replLit (List.drop j badLit) _ hpre with h2 | ⟨h2, -⟩
        · exfalso
          have h3 : (List.drop j badLit).isPrefixOf replLit = true := (isPre_iff _ _).mpr h2
          rw [factB j hj2 hj1] at h3
          exact Bool.false_ne_true h3
        · exfalso
          have hl := isPre_length h2
          have hd : (List.drop j badLit).length = 18 - j := by
            rw [List.length_drop, badLit_length]
          rw [replLit_length, hd] at hl
          omega
      · rw [replaceAll_cons, if_neg (by simp [hb])] at hpre
        cases hq : List.drop j badLit with
        | nil =>
          exfalso
          have hd : (List.drop j badLit).length = 18 - j := by
            rw [List.length_drop, badLit_length]
          rw [hq] at hd
          simp at hd
          omega
        | cons q0 qt =>
          rw [hq] at hpre
          obtain ⟨hq0, hqt⟩ := isPre_cons_iff.mp hpre
          have hqt_eq : qt = List.drop (j + 1) badLit := by
            have h5 : List.drop 1 (List.drop j badLit) = List.drop (j + 1) badLit :=
              List.drop_drop 1 j badLit
            rw [hq] at h5
            simp at h5
            exact h5
          by_cases hqtnil : qt = []
          · rw [hqtnil]
            refine isPre_cons_iff.mpr ⟨hq0, ⟨rest, rfl⟩⟩
          · have hlen : qt.length = 18 - (j + 1) := by
              rw [hqt_eq, List.length_drop, badLit_length]
            have hj3 : j + 1 < 18 := by
              have hpos := List.length_pos.mpr hqtnil
              omega
            have hrest : rest.length ≤ f := by
              simp at hs
              omega
            have h6 : IsPre (List.drop (j + 1) badLit) rest :=
              ih rest (j + 1) hrest (by omega) hj3 (by rw [← hqt_eq]; exact hqt)
            exact isPre_cons_iff.mpr ⟨hq0, by rw [hqt_eq]; exact h6⟩

/-- Core safety theorem: the replaced string contains no occurrence of the
bad literal, for any input string. -/
theorem no_bad_occ : ∀ s, ¬ HasOcc badLit (replaceAll badLit replLit s) := by
  suffices h : ∀ fuel s, s.length ≤ fuel → ¬ HasOcc badLit (replaceAll badLit replLit s) by
    intro s
    exact h s.length s le_rfl
  intro fuel
  induction fuel with
  | zero =>
    intro s hs
    have hnil : s = [] := List.eq_nil_of_length_eq_zero (Nat.le_zero.mp hs)
    subst hnil
    rw [replaceAll_nil]
    exact hasOcc_nil badLit_ne_nil
  | succ f ih =>
    intro s hs
    cases s with
    | nil =>
      rw [replaceAll_nil]
      exact hasOcc_nil badLit_ne_nil
    | cons c rest =>
      rcases Bool.eq_false_or_eq_true (badLit.isPrefixOf (c :: rest) && !badLit.isEmpty)
        with hb | hb
      · rw [replaceAll_cons, if_pos hb]
        intro hocc
        rcases hasOcc_append_cases replLit badLit _ hocc with h1 | h1 | ⟨x2, hne, hsuf, hpre, -⟩
        · exact replLit_no_bad h1
        · have hd : (List.drop (badLit.length - 1) rest).length ≤ f := by
            have h2 := List.length_drop (badLit.length - 1) rest
            simp at hs
            omega
          exact ih (List.drop (badLit.length - 1) rest) hd h1
        · have e1 : x2 = List.take x2.length badLit := isPre_eq_take hpre
          have e2 : x2 = List.drop (replLit.length - x2.length) replLit := isSuf_eq_drop hsuf
          have hl1 : 0 < x2.length := List.length_pos.mpr hne
          have hl2 : x2.length ≤ 18 := by
            have h3 := isPre_length hpre
            rw [badLit_length] at h3
            exact h3
          rw [replLit_length] at e2
          exact factA x2.length (by omega) hl1 (e1.symm.trans e2)
      · rw [replaceAll_cons, if_neg (by simp [hb])]
        intro hocc
        rcases hasOcc_cons_iff.mp hocc with h1 | h1
        · rw [badLit_cons] at h1
          obtain ⟨hc, htail⟩ := isPre_cons_iff.mp h1
          have h2 : IsPre (List.drop 1 badLit) rest := by
            refine dropBad_pre_replaceAll rest.length rest 1 le_rfl (by omega) (by omega) ?_
            rw [← bTail_eq_drop]
            exact htail
          have h3 : IsPre badLit (c :: rest) := by
            rw [badLit_cons]
            exact isPre_cons_iff.mpr ⟨hc, by rw [bTail_eq_drop]; exact h2⟩
          have h4 : badLit.isPrefixOf (c :: rest) = true := (isPre_iff _ _).mpr h3
          rw [h4, badLit_isEmpty] at hb
          simp at hb
        · have hrest : rest.length ≤ f := by
            simp at hs
            omega
          exact ih rest hrest h1

/-- Each inserted replacement contributes exactly one occurrence of the
verification literal at the front of the remaining output. -/
theorem countOccs_verify_repl_append (X : List Char) :
    countOccs verifyLit (replLit ++ X) = countOccs verifyLit X + 1 := by
  have h1 : replLit ++ X = 'g' :: (vTail ++ (' ' :: X)) := by
    rw [replLit_eq, verifyLit_cons]
    simp
  rw [h1, countOccs_cons]
  have hpre : verifyLit.isPrefixOf ('g' :: (vTail ++ ' ' :: X)) = true := by
    apply (isPre_iff _ _).mpr
    rw [verifyLit_cons]
    exact isPre_cons_iff.mpr ⟨rfl, ⟨' ' :: X, rfl⟩⟩
  rw [if_pos (by rw [hpre, verifyLit_isEmpty]; rfl)]
  have h2 : verifyLit.length - 1 = vTail.length := by
    rw [verifyLit_length, vTail_length]
  rw [h2, drop_len_append]
  have h3 : verifyLit.isPrefixOf (' ' :: X) = false := by
    rcases Bool.eq_false_or_eq_true (verifyLit.isPrefixOf (' ' :: X)) with ht | hf
    · exfalso
      have h4 := (isPre_iff _ _).mp ht
      rw [verifyLit_cons] at h4
      have h5 := (isPre_cons_iff.mp h4).1
      exact absurd h5 (by decide)
    · exact hf
  rw [countOccs_cons, if_neg (by simp [h3])]

/-- Scanning past a proper trailing segment of the border-free verification
literal finds no occurrence inside it. -/
theorem countOccs_verify_dropSelf : ∀ (m j : Nat), j + m = 22 → 0 < j →
    ∀ Z, countOccs verifyLit (List.drop j verifyLit ++ Z) = countOccs verifyLit Z := by
  intro m
  induction m with
  | zero =>
    intro j hj _ Z
    have hj22 : j = 22 := by omega
    subst hj22
    have hd : List.drop 22 verifyLit = [] := by decide
    rw [hd]
    rfl
  | succ m ih =>
    intro j hj hj0 Z
    have hjlt : j < 22 := by omega
    cases hq : List.drop j verifyLit with
    | nil =>
      exfalso
      have hd : (List.drop j verifyLit).length = 22 - j := by
        rw [List.length_drop, verifyLit_length]
      rw [hq] at hd
      simp at hd
      omega
    | cons q0 qt =>
      have hqt_eq : qt = List.drop (j + 1) verifyLit := by
        have h5 := List.drop_drop 1 j verifyLit
        rw [hq] at h5
        simp at h5
        exact h5
      rw [List.cons_append, countOccs_cons]
      have hcond : verifyLit.isPrefixOf (q0 :: (qt ++ Z)) = false := by
        rcases Bool.eq_false_or_eq_true (verifyLit.isPrefixOf (q0 :: (qt ++ Z))) with ht | hf
        · exfalso
          have h4 := (isPre_iff _ _).mp ht
          have h4' : IsPre verifyLit (List.drop j verifyLit ++ Z) := by
            rw [hq, List.cons_append]
            exact h4
          rcases isPre_append_cases (List.drop j verifyLit) verifyLit Z h4' with h5 | ⟨h5, -⟩
          · have hl := isPre_length h5
            have hd : (List.drop j verifyLit).length = 22 - j := by
              rw [List.length_drop, verifyLit_length]
            rw [verifyLit_length, hd] at hl
            omega
          · have he := isPre_eq_take h5
            have hd : (List.drop j verifyLit).length = 22 - j := by
              rw [List.length_drop, verifyLit_length]
            rw [hd] at he
            exact factC j hjlt hj0 he
        · exact hf
      rw [if_neg (by simp [hcond])]
      rw [hqt_eq]
      exact ih (j + 1) (by omega) (by omega) Z

/-- Prepending a character never loses occurrences of the verification
literal (using its border-freeness). -/
theorem countOccs_verify_cons_ge (c : Char) (X : List Char) :
    countOccs verifyLit X ≤ countOccs verifyLit (c :: X) := by
  rcases Bool.eq_false_or_eq_true (verifyLit.isPrefixOf (c :: X)) with ht | hf
  · have h1 := (isPre_iff _ _).mp ht
    obtain ⟨w, hw⟩ := h1
    rw [verifyLit_cons, List.cons_append] at hw
    injection hw with hc hX
    rw [countOccs_cons, if_pos (by rw [ht, verifyLit_isEmpty]; rfl)]
    have h2 : verifyLit.length - 1 = vTail.length := by
      rw [verifyLit_length, vTail_length]
    rw [h2]
    subst hX
    rw [drop_len_append]
    have h3 : countOccs verifyLit (vTail ++ w) = countOccs verifyLit w := by
      have h4 := countOccs_verify_dropSelf 21 1 (by omega) (by omega) w
      rw [← vTail_eq_drop] at h4
      exact h4
    rw [h3]
    omega
  · rw [countOccs_cons, if_neg (by simp [hf])]

/-- The replaced string has at least as many occurrences of the verification
literal as the original had of the bad literal. -/
theorem countOccs_verify_ge_bad : ∀ s,
    countOccs badLit s ≤ countOccs verifyLit (replaceAll badLit replLit s) := by
  suffices h : ∀ fuel s, s.length ≤ fuel →
      countOccs badLit s ≤ countOccs verifyLit (replaceAll badLit replLit s) by
    intro s
    exact h s.length s le_rfl
  intro fuel
  induction fuel with
  | zero =>
    intro s hs
    have hnil : s = [] := List.eq_nil_of_length_eq_zero (Nat.le_zero.mp hs)
    subst hnil
    rw [replaceAll_nil]
    simp [countOccs_nil]
  | succ f ih =>
    intro s hs
    cases s with
    | nil =>
      rw [replaceAll_nil]
      simp [countOccs_nil]
    | cons c rest =>
      rcases Bool.eq_false_or_eq_true (badLit.isPrefixOf (c :: rest) && !badLit.isEmpty)
        with hb | hb
      · rw [replaceAll_cons, if_pos hb, countOccs_cons, if_pos hb]
        rw [countOccs_verify_repl_append]
        have hd : (List.drop (badLit.length - 1) rest).length ≤ f := by
          have h2 := List.length_drop (badLit.length - 1) rest
          simp at hs
          omega
        have h3 := ih (List.drop (badLit.length - 1) rest) hd
        omega
      · rw [replaceAll_cons, if_neg (by simp [hb]), countOccs_cons, if_neg (by simp [hb])]
        have hrest : rest.length ≤ f := by
          simp at hs
          omega
        calc countOccs badLit rest
            ≤ countOccs verifyLit (replaceAll badLit replLit rest) := ih rest hrest
          _ ≤ countOccs verifyLit (c :: replaceAll badLit replLit rest) :=
              countOccs_verify_cons_ge c _

theorem isPre_dropVerify_nil {j : Nat} (hj : j < 22)
    (h : IsPre (List.drop j verifyLit) ([] : List Char)) : False := by
  have h2 := isPre_nil_right h
  have hd : (List.drop j verifyLit).length = 22 - j := by
    rw [List.length_drop, verifyLit_length]
  rw [h2] at hd
  simp at hd
  omega

/-- If a proper trailing segment of the verification literal is a leading
segment of a replaced string, it was already one of the original string. -/
theorem dropVerify_pre_replaceAll : ∀ (fuel : Nat) (s : List Char) (j : Nat),
    s.length ≤ fuel → 0 < j → j < 22 →
    IsPre (List.drop j verifyLit) (replaceAll badLit replLit s) →
    IsPre (List.drop j verifyLit) s := by
  intro fuel
  induction fuel with
  | zero =>
    intro s j hs hj1 hj2 hpre
    have hnil : s = [] := List.eq_nil_of_length_eq_zero (Nat.le_zero.mp hs)
    subst hnil
    rw [replaceAll_nil] at hpre
    exact absurd hpre (fun h => isPre_dropVerify_nil hj2 h)
  | succ f ih =>
    intro s j hs hj1 hj2 hpre
    cases s with
    | nil =>
      rw [replaceAll_nil] at hpre
      exact absurd hpre (fun h => isPre_dropVerify_nil hj2 h)
    | cons c rest =>
      rcases Bool.eq_false_or_eq_true (badLit.isPrefixOf (c :: rest) && !badLit.isEmpty)
        with hb | hb
      · rw [replaceAll_cons, if_pos hb] at hpre
        rcases isPre_append_cases replLit (List.drop j verifyLit) _ hpre with h2 | ⟨h2, -⟩
        · exfalso
          have h3 : (List.drop j verifyLit).isPrefixOf replLit = true := (isPre_iff _ _).mpr h2
          rw [factD j hj2 hj1] at h3
          exact Bool.false_ne_true h3
        · exfalso
          have hl := isPre_length h2
          have hd : (List.drop j verifyLit).length = 22 - j := by
            rw [List.length_drop, verifyLit_length]
          rw [replLit_length, hd] at hl
          omega
      · rw [replaceAll_cons, if_neg (by simp [hb])] at hpre
        cases hq : List.drop j verifyLit with
        | nil =>
          exfalso
          have hd : (List.drop j verifyLit).length = 22 - j := by
            rw [List.length_drop, verifyLit_length]
          rw [hq] at hd
          simp at hd
          omega
        | cons q0 qt =>
          rw [hq] at hpre
          obtain ⟨hq0, hqt⟩ := isPre_cons_iff.mp hpre
          have hqt_eq : qt = List.drop (j + 1) verifyLit := by
            have h5 := List.drop_drop 1 j verifyLit
            rw [hq] at h5
            simp at h5
            exact h5
          by_cases hqtnil : qt = []
          · rw [hqtnil]
            exact isPre_cons_iff.mpr ⟨hq0, ⟨rest, rfl⟩⟩
          · have hj3 : j + 1 < 22 := by
              have hpos := List.length_pos.mpr hqtnil
              have hlen : qt.length = 22 - (j + 1) := by
                rw [hqt_eq, List.length_drop, verifyLit_length]
              omega
            have hrest : rest.length ≤ f := by
              simp at hs
              omega
            have h6 : IsPre (List.drop (j + 1) verifyLit) rest :=
              ih rest (j + 1) hrest (by omega) hj3 (by rw [← hqt_eq]; exact hqt)
            exact isPre_cons_iff.mpr ⟨hq0, by rw [hqt_eq]; exact h6⟩

/-- When the original string contains no occurrence of the verification
literal, the replaced string contains exactly one occurrence per replaced
occurrence of the bad literal. -/
theorem countOccs_verify_replaceAll_eq : ∀ s, ¬ HasOcc verifyLit s →
    countOccs verifyLit (replaceAll badLit replLit s) = countOccs badLit s := by
  suffices h : ∀ fuel s, s.length ≤ fuel → ¬ HasOcc verifyLit s →
      countOccs verifyLit (replaceAll badLit replLit s) = countOccs badLit s by
    intro s
    exact h s.length s le_rfl
  intro fuel
  induction fuel with
  | zero =>
    intro s hs _
    have hnil : s = [] := List.eq_nil_of_length_eq_zero (Nat.le_zero.mp hs)
    subst hnil
    rw [replaceAll_nil]
    simp [countOccs_nil]
  | succ f ih =>
    intro s hs hocc
    cases s with
    | nil =>
      rw [replaceAll_nil]
      simp [countOccs_nil]
    | cons c rest =>
      rcases Bool.eq_false_or_eq_true (badLit.isPrefixOf (c :: rest) && !badLit.isEmpty)
        with hb | hb
      · rw [replaceAll_cons, if_pos hb, countOccs_verify_repl_append,
          countOccs_cons badLit, if_pos hb]
        congr 1
        have hd : (List.drop (badLit.length - 1) rest).length ≤ f := by
          have h2 := List.length_drop (badLit.length - 1) rest
          simp at hs
          omega
        refine ih (List.drop (badLit.length - 1) rest) hd ?_
        intro h2
        exact hocc (hasOcc_cons c (hasOcc_drop _ h2))
      · rw [replaceAll_cons, if_neg (by simp [hb]), countOccs_cons badLit,
          if_neg (by simp [hb])]
        rw [countOccs_cons]
        have hcond : verifyLit.isPrefixOf (c :: replaceAll badLit replLit rest) = false := by
          rcases Bool.eq_false_or_eq_true
            (verifyLit.isPrefixOf (c :: replaceAll badLit replLit rest)) with ht | hf
          · exfalso
            have h4 := (isPre_iff _ _).mp ht
            rw [verifyLit_cons] at h4
            obtain ⟨hc, htail⟩ := isPre_cons_iff.mp h4
            have h5 : IsPre (List.drop 1 verifyLit) rest := by
              refine dropVerify_pre_replaceAll rest.length rest 1 le_rfl
                (by omega) (by omega) ?_
              rw [← vTail_eq_drop]
              exact htail
            have h6 : IsPre verifyLit (c :: rest) := by
              rw [verifyLit_cons]
              exact isPre_cons_iff.mpr ⟨hc, by rw [vTail_eq_drop]; exact h5⟩
            exact hocc (hasOcc_of_isPre h6)
          · exact hf
        rw [if_neg (by simp [hcond])]
        have hrest : rest.length ≤ f := by
          simp at hs
          omega
        exact ih rest hrest (fun h2 => hocc (hasOcc_cons c h2))

/-- Applying the replacement twice is the same as applying it once. -/
theorem replaceAll_idem (s : List Char) :
    replaceAll badLit replLit (replaceAll badLit replLit s) = replaceAll badLit replLit s :=
  replaceAll_of_no_occ _ (no_bad_occ s)

/-- The replaced string counts zero occurrences of the bad literal. -/
theorem countOccs_bad_replaceAll (s : List Char) :
    countOccs badLit (replaceAll badLit replLit s) = 0 :=
  (countOccs_eq_zero_iff badLit_ne_nil _).mpr (no_bad_occ s)

/-- Filesystem paths, modelled as character lists. -/
abbrev FsPath := List Char

/-- Filesystem: a partial map from paths to file contents. -/
abbrev FS := FsPath → Option (List Char)

/-- Read a file's content; the script only reads paths it has checked exist. -/
def readFS (fs : FS) (p : FsPath) : List Char := (fs p).getD []

/-- Write (create or overwrite) a file. -/
def writeFS (fs : FS) (p : FsPath) (content : List Char) : FS :=
  fun q => if q = p then some content else fs q

/-- The fixed relative sub-path `cai/repl/commands/mcp.py` together with the
joining separator, as produced by `os.path.join` for these components. -/
def mcpRel : FsPath := "/cai/repl/commands/mcp.py".toList

/-- `os.path.join(path, 'cai', 'repl', 'commands', 'mcp.py')`. -/
def joinCai (d : FsPath) : FsPath := d ++ mcpRel

/-- Suffix the script appends to the target path to form the backup path. -/
def backupSuffix : FsPath := ".backup".toList

/-- Ambient environment configuration read by the locator: the system
site-package directories, the user site-package directory, whether an
isolated environment distinct from the base installation is active, and that
environment's site-package directory. -/
structure Env where
  sitePackages : List FsPath
  userSitePackages : FsPath
  venvActive : Bool
  venvSitePackages : FsPath

/-- The `for path in search_paths` loop of `find_cai_mcp_file`: return the
first candidate whose joined path exists. -/
def searchLoop (fs : FS) : List FsPath → Option FsPath
  | [] => none
  | d :: rest =>
    if (fs (joinCai d)).isSome then some (joinCai d) else searchLoop fs rest

/-- `find_cai_mcp_file`: search, in order, the system site-package
directories, the user site-package directory, and (only when an isolated
environment distinct from the base installation is active) that
environment's site-package directory. -/
def find_cai_mcp_file (env : Env) (fs : FS) : Option FsPath :=
  searchLoop fs
    (env.sitePackages ++ [env.userSitePackages] ++
      (if env.venvActive then [env.venvSitePackages] else []))

/-- Progress and summary messages the script prints, abstracted by site. -/
inductive Note
  | notFound
  | foundInstall
  | creatingBackup
  | backupCreated
  | alreadyFixed
  | applyingFixes
  | fixAppliedSuccess
  | countsReport (before afterN getattrN : Nat)
  | allFixed
  | warnRemain (remaining : Nat)
  | summary
  | fixFailed
deriving DecidableEq

/-- Result of a run of `fix_cai_mcp_bug`: the returned boolean flag, the
resulting filesystem, and the messages printed. -/
structure FixOutcome where
  success : Bool
  fs : FS
  notes : List Note

/-- Lines 93-115 of the script: after writing, re-read the file (the re-read
content is the `fixed_content` argument), recount, report, and return the
flag: `True` when no bad-literal occurrence remains, else a warning and
`False`. -/
def fix_after_write (before_count : Nat) (fixed_content : List Char) (fs2 : FS)
    (notes : List Note) : FixOutcome :=
  if countOccs badLit fixed_content = 0 then
    { success := true, fs := fs2,
      notes := notes ++ [Note.fixAppliedSuccess,
        Note.countsReport before_count (countOccs badLit fixed_content)
          (countOccs verifyLit fixed_content), Note.allFixed] }
  else
    { success := false, fs := fs2,
      notes := notes ++ [Note.fixAppliedSuccess,
        Note.countsReport before_count (countOccs badLit fixed_content)
          (countOccs verifyLit fixed_content),
        Note.warnRemain (countOccs badLit fixed_content)] }

/-- Lines 70-115 of the script: count the bad-literal occurrences; on zero
report "already fixed" and return `True` without writing; otherwise replace
every occurrence, write the result, re-read it and verify. -/
def fix_count (file_path : FsPath) (fs1 : FS) (notes1 : List Note) : FixOutcome :=
  if countOccs badLit (readFS fs1 file_path) = 0 then
    { success := true, fs := fs1, notes := notes1 ++ [Note.alreadyFixed] }
  else
    fix_after_write (countOccs badLit (readFS fs1 file_path))
      (readFS (writeFS fs1 file_path
        (replaceAll badLit replLit (readFS fs1 file_path))) file_path)
      (writeFS fs1 file_path (replaceAll badLit replLit (readFS fs1 file_path)))
      (notes1 ++ [Note.applyingFixes])

/-- Lines 58-115 of the script: once the target file is found, create the
backup unless it already exists, then count / replace / verify. -/
def fix_found (file_path : FsPath) (fs : FS) : FixOutcome :=
  if (fs (file_path ++ backupSuffix)).isSome then
    fix_count file_path fs [Note.foundInstall]
  else
    fix_count file_path
      (writeFS fs (file_path ++ backupSuffix) (readFS fs file_path))
      [Note.foundInstall, Note.creatingBackup, Note.backupCreated]

/-- `fix_cai_mcp_bug`: locate the target file; report failure when absent,
otherwise back up, count, replace, write and verify. -/
def fix_cai_mcp_bug (env : Env) (fs : FS) : FixOutcome :=
  match find_cai_mcp_file env fs with
  | none => { success := false, fs := fs, notes := [Note.notFound] }
  | some file_path => fix_found file_path fs

/-- Result of running `main`: the script never calls `sys.exit`, so whenever
the run completes the process exit status is 0 (modelled by `exitCode := 0`
on every path; an unhandled I/O fault is outside this pure model). -/
structure MainOutcome where
  success : Bool
  fs : FS
  notes : List Note
  exitCode : Nat

/-- The `main` function of the script: run the fix, then print either the summary block or the failure
line, and return normally. -/
def script_main (env : Env) (fs : FS) : MainOutcome :=
  if (fix_cai_mcp_bug env fs).success then
    { success := true, fs := (fix_cai_mcp_bug env fs).fs,
      notes := (fix_cai_mcp_bug env fs).notes ++ [Note.summary], exitCode := 0 }
  else
    { success := false, fs := (fix_cai_mcp_bug env fs).fs,
      notes := (fix_cai_mcp_bug env fs).notes ++ [Note.fixFailed], exitCode := 0 }

theorem writeFS_self (fs : FS) (p : FsPath) (content : List Char) :
    writeFS fs p content p = some content := by
  simp [writeFS]

theorem writeFS_ne (fs : FS) (p : FsPath) (content : List Char) (q : FsPath)
    (h : q ≠ p) : writeFS fs p content q = fs q := by
  simp [writeFS, h]

theorem readFS_write_self (fs : FS) (p : FsPath) (content : List Char) :
    readFS (writeFS fs p content) p = content := by
  simp [readFS, writeFS]

theorem readFS_write_ne (fs : FS) (p : FsPath) (content : List Char) (q : FsPath)
    (h : q ≠ p) : readFS (writeFS fs p content) q = readFS fs q := by
  simp [readFS, writeFS, h]

theorem append_ne_self (p s : FsPath) (h : s ≠ []) : p ++ s ≠ p := by
  intro he
  have h2 : p.length + s.length = p.length := by
    simpa using congrArg List.length he
  have h3 : s.length = 0 := by omega
  exact h (List.eq_nil_of_length_eq_zero h3)

theorem backup_ne_self (p : FsPath) : p ++ backupSuffix ≠ p :=
  append_ne_self p backupSuffix (by decide)

/-- A candidate target path (ending in `mcp.py`) is never a backup path
(ending in `.backup`). -/
theorem joinCai_ne_backup (d p : FsPath) : joinCai d ≠ p ++ backupSuffix := by
  intro he
  have h1 : IsSuf mcpRel (p ++ backupSuffix) := by
    rw [← he]
    exact ⟨d, rfl⟩
  have h2 : IsSuf backupSuffix (p ++ backupSuffix) := ⟨p, rfl⟩
  have h3 : IsSuf backupSuffix mcpRel := isSuf_of_isSuf_le h2 h1 (by decide)
  have h4 := isSuf_eq_drop h3
  revert h4
  decide

theorem searchLoop_none_iff (fs : FS) : ∀ ds : List FsPath,
    searchLoop fs ds = none ↔ ∀ d ∈ ds, (fs (joinCai d)).isSome = false := by
  intro ds
  induction ds with
  | nil => simp [searchLoop]
  | cons d rest ih =>
    by_cases h : (fs (joinCai d)).isSome = true
    · simp only [searchLoop]
      rw [if_pos h]
      constructor
      · intro h2
        exact absurd h2 (by simp)
      · intro h2
        have h3 := h2 d (by simp)
        rw [h] at h3
        exact absurd h3 (by simp)
    · simp only [searchLoop]
      rw [if_neg h, ih]
      constructor
      · intro h2 d' hd'
        rcases List.mem_cons.mp hd' with he | hm
        · subst he
          exact Bool.eq_false_iff.mpr h
        · exact h2 d' hm
      · intro h2 d' hd'
        exact h2 d' (List.mem_cons_of_mem _ hd')

theorem searchLoop_some_isSome (fs : FS) : ∀ (ds : List FsPath) (f : FsPath),
    searchLoop fs ds = some f → (fs f).isSome = true := by
  intro ds
  induction ds with
  | nil =>
    intro f h
    exact absurd h (by simp [searchLoop])
  | cons d rest ih =>
    intro f h
    simp only [searchLoop] at h
    by_cases hd : (fs (joinCai d)).isSome = true
    · rw [if_pos hd] at h
      injection h with h2
      rw [← h2]
      exact hd
    · rw [if_neg hd] at h
      exact ih f h

/-- Characterization of the search loop: it returns `some f` exactly when
some candidate directory `d` exists with `f` its joined path, the file
exists there, and the file exists at no earlier candidate. -/
theorem searchLoop_some_iff (fs : FS) : ∀ (ds : List FsPath) (f : FsPath),
    searchLoop fs ds = some f ↔
      ∃ l1 d l2, ds = l1 ++ d :: l2 ∧ f = joinCai d ∧
        (fs (joinCai d)).isSome = true ∧
        ∀ d' ∈ l1, (fs (joinCai d')).isSome = false := by
  intro ds
  induction ds with
  | nil =>
    intro f
    constructor
    · intro h
      exact absurd h (by simp [searchLoop])
    · rintro ⟨l1, d, l2, hds, -, -, -⟩
      exact absurd hds (by cases l1 <;> simp)
  | cons d0 rest ih =>
    intro f
    by_cases hd : (fs (joinCai d0)).isSome = true
    · constructor
      · intro h
        simp only [searchLoop] at h
        rw [if_pos hd] at h
        injection h with h2
        exact ⟨[], d0, rest, rfl, h2.symm, hd, by simp⟩
      · rintro ⟨l1, d, l2, hds, hf, hsome, hall⟩
        cases l1 with
        | nil =>
          simp at hds
          obtain ⟨hd0, hrest⟩ := hds
          simp only [searchLoop]
          rw [if_pos hd, hf, hd0]
        | cons a l1' =>
          exfalso
          rw [List.cons_append] at hds
          injection hds with h1 h2
          have hfa := hall a (by simp)
          rw [← h1] at hfa
          rw [hfa] at hd
          exact absurd hd (by simp)
    · constructor
      · intro h
        simp only [searchLoop] at h
        rw [if_neg hd] at h
        obtain ⟨l1, d, l2, hds, hf, hsome, hall⟩ := (ih f).mp h
        refine ⟨d0 :: l1, d, l2, by rw [hds, List.cons_append], hf, hsome, ?_⟩
        intro d' hd'
        rcases List.mem_cons.mp hd' with he | hm
        · subst he
          exact Bool.eq_false_iff.mpr hd
        · exact hall d' hm
      · rintro ⟨l1, d, l2, hds, hf, hsome, hall⟩
        cases l1 with
        | nil =>
          exfalso
          simp at hds
          obtain ⟨hd0, hrest⟩ := hds
          rw [← hd0] at hsome
          exact hd hsome
        | cons a l1' =>
          rw [List.cons_append] at hds
          injection hds with h1 h2
          simp only [searchLoop]
          rw [if_neg hd]
          refine (ih f).mpr ⟨l1', d, l2, h2, hf, hsome, ?_⟩
          intro d' hd'
          exact hall d' (List.mem_cons_of_mem _ hd')

theorem searchLoop_congr (fs fs' : FS) : ∀ ds : List FsPath,
    (∀ d ∈ ds, (fs' (joinCai d)).isSome = (fs (joinCai d)).isSome) →
    searchLoop fs' ds = searchLoop fs ds := by
  intro ds
  induction ds with
  | nil =>
    intro _
    rfl
  | cons d rest ih =>
    intro h
    have hd := h d (by simp)
    simp only [searchLoop]
    rw [hd]
    by_cases h2 : (fs (joinCai d)).isSome = true
    · rw [if_pos h2, if_pos h2]
    · rw [if_neg h2, if_neg h2]
      exact ih (fun d' hd' => h d' (List.mem_cons_of_mem _ hd'))

theorem find_some_isSome {env : Env} {fs : FS} {p : FsPath}
    (h : find_cai_mcp_file env fs = some p) : (fs p).isSome = true :=
  searchLoop_some_isSome fs _ p h

theorem fix_count_success (p : FsPath) (fs1 : FS) (notes1 : List Note) :
    (fix_count p fs1 notes1).success = true := by
  unfold fix_count
  by_cases h : countOccs badLit (readFS fs1 p) = 0
  · rw [if_pos h]
  · rw [if_neg h]
    unfold fix_after_write
    rw [readFS_write_self, if_pos (countOccs_bad_replaceAll _)]

theorem fix_count_fs_target (p : FsPath) (fs1 : FS) (notes1 : List Note) :
    (fix_count p fs1 notes1).fs p =
      if countOccs badLit (readFS fs1 p) = 0 then fs1 p
      else some (replaceAll badLit replLit (readFS fs1 p)) := by
  unfold fix_count fix_after_write
  by_cases h : countOccs badLit (readFS fs1 p) = 0
  · rw [if_pos h, if_pos h]
  · rw [if_neg h, if_neg h, readFS_write_self, if_pos (countOccs_bad_replaceAll _)]
    exact writeFS_self fs1 p _

theorem fix_count_fs_other (p : FsPath) (fs1 : FS) (notes1 : List Note) (q : FsPath)
    (h : q ≠ p) : (fix_count p fs1 notes1).fs q = fs1 q := by
  unfold fix_count fix_after_write
  by_cases hc : countOccs badLit (readFS fs1 p) = 0
  · rw [if_pos hc]
  · rw [if_neg hc, readFS_write_self, if_pos (countOccs_bad_replaceAll _)]
    exact writeFS_ne fs1 p _ q h

theorem fix_count_no_warn (p : FsPath) (fs1 : FS) (notes1 : List Note) (m : Nat)
    (h : Note.warnRemain m ∉ notes1) :
    Note.warnRemain m ∉ (fix_count p fs1 notes1).notes := by
  unfold fix_count fix_after_write
  by_cases hc : countOccs badLit (readFS fs1 p) = 0
  · rw [if_pos hc]
    intro hmem
    simp [List.mem_append] at hmem
    exact h hmem
  · rw [if_neg hc, readFS_write_self, if_pos (countOccs_bad_replaceAll _)]
    intro hmem
    simp [List.mem_append] at hmem
    exact h hmem

theorem fix_found_success (p : FsPath) (fs : FS) : (fix_found p fs).success = true := by
  unfold fix_found
  by_cases hb : (fs (p ++ backupSuffix)).isSome = true
  · rw [if_pos hb]
    exact fix_count_success p fs _
  · rw [if_neg hb]
    exact fix_count_success p _ _

theorem fix_found_fs_target (p : FsPath) (fs : FS) :
    (fix_found p fs).fs p =
      if countOccs badLit (readFS fs p) = 0 then fs p
      else some (replaceAll badLit replLit (readFS fs p)) := by
  unfold fix_found
  by_cases hb : (fs (p ++ backupSuffix)).isSome = true
  · rw [if_pos hb]
    exact fix_count_fs_target p fs _
  · rw [if_neg hb]
    have h1 : readFS (writeFS fs (p ++ backupSuffix) (readFS fs p)) p = readFS fs p :=
      readFS_write_ne fs _ _ p (Ne.symm (backup_ne_self p))
    rw [fix_count_fs_target, h1]
    by_cases hc : countOccs badLit (readFS fs p) = 0
    · rw [if_pos hc, if_pos hc]
      exact writeFS_ne fs _ _ p (Ne.symm (backup_ne_self p))
    · rw [if_neg hc, if_neg hc]

theorem fix_found_fs_backup (p : FsPath) (fs : FS) :
    (fix_found p fs).fs (p ++ backupSuffix) =
      if (fs (p ++ backupSuffix)).isSome then fs (p ++ backupSuffix)
      else some (readFS fs p) := by
  unfold fix_found
  by_cases hb : (fs (p ++ backupSuffix)).isSome = true
  · rw [if_pos hb, if_pos hb]
    exact fix_count_fs_other p fs _ _ (backup_ne_self p)
  · rw [if_neg hb, if_neg hb]
    rw [fix_count_fs_other p _ _ _ (backup_ne_self p)]
    exact writeFS_self fs _ _

theorem fix_found_fs_other (p : FsPath) (fs : FS) (q : FsPath)
    (h1 : q ≠ p) (h2 : q ≠ p ++ backupSuffix) : (fix_found p fs).fs q = fs q := by
  unfold fix_found
  by_cases hb : (fs (p ++ backupSuffix)).isSome = true
  · rw [if_pos hb]
    exact fix_count_fs_other p fs _ q h1
  · rw [if_neg hb]
    rw [fix_count_fs_other p _ _ q h1]
    exact writeFS_ne fs _ _ q h2

theorem fix_found_backup_isSome (p : FsPath) (fs : FS) :
    ((fix_found p fs).fs (p ++ backupSuffix)).isSome = true := by
  rw [fix_found_fs_backup]
  by_cases hb : (fs (p ++ backupSuffix)).isSome = true
  · rw [if_pos hb]
    exact hb
  · rw [if_neg hb]
    rfl

theorem fix_found_no_warn (p : FsPath) (fs : FS) (m : Nat) :
    Note.warnRemain m ∉ (fix_found p fs).notes := by
  unfold fix_found
  by_cases hb : (fs (p ++ backupSuffix)).isSome = true
  · rw [if_pos hb]
    exact fix_count_no_warn p fs _ m (by simp)
  · rw [if_neg hb]
    exact fix_count_no_warn p _ _ m (by simp)

theorem fix_found_target_clean (p : FsPath) (fs : FS) :
    countOccs badLit (readFS (fix_found p fs).fs p) = 0 := by
  have h1 := fix_found_fs_target p fs
  by_cases hc : countOccs badLit (readFS fs p) = 0
  · rw [if_pos hc] at h1
    have h2 : readFS (fix_found p fs).fs p = readFS fs p := by
      unfold readFS
      rw [h1]
    rw [h2]
    exact hc
  · rw [if_neg hc] at h1
    have h2 : readFS (fix_found p fs).fs p = replaceAll badLit replLit (readFS fs p) := by
      unfold readFS
      rw [h1]
      rfl
    rw [h2]
    exact countOccs_bad_replaceAll _

/-- A run on a filesystem whose backup already exists and whose target is
already clean performs no mutation at all. -/
theorem fix_found_no_mutation (p : FsPath) (fs1 : FS)
    (hb : (fs1 (p ++ backupSuffix)).isSome = true)
    (hz : countOccs badLit (readFS fs1 p) = 0) :
    (fix_found p fs1).fs = fs1 := by
  unfold fix_found
  rw [if_pos hb]
  unfold fix_count
  rw [if_pos hz]

theorem fix_eq_found {env : Env} {fs : FS} {p : FsPath}
    (h : find_cai_mcp_file env fs = some p) :
    fix_cai_mcp_bug env fs = fix_found p fs := by
  unfold fix_cai_mcp_bug
  rw [h]

theorem fix_eq_notFound {env : Env} {fs : FS}
    (h : find_cai_mcp_file env fs = none) :
    fix_cai_mcp_bug env fs =
      { success := false, fs := fs, notes := [Note.notFound] } := by
  unfold fix_cai_mcp_bug
  rw [h]

/-- The locator still finds the same target after a run: only the target
itself (still existing) and its backup (never a candidate) were written. -/
theorem find_after_fix {env : Env} {fs : FS} {p : FsPath}
    (h : find_cai_mcp_file env fs = some p) :
    find_cai_mcp_file env (fix_found p fs).fs = some p := by
  unfold find_cai_mcp_file at h ⊢
  have hcong : ∀ d ∈ (env.sitePackages ++ [env.userSitePackages] ++
      (if env.venvActive then [env.venvSitePackages] else [])),
      ((fix_found p fs).fs (joinCai d)).isSome = (fs (joinCai d)).isSome := by
    intro d _
    by_cases hq : joinCai d = p
    · rw [hq]
      have h1 : (fs p).isSome = true := searchLoop_some_isSome fs _ p h
      have h3 := fix_found_fs_target p fs
      by_cases hc : countOccs badLit (readFS fs p) = 0
      · rw [if_pos hc] at h3
        rw [h3]
      · rw [if_neg hc] at h3
        rw [h3, h1]
        rfl
    · rw [fix_found_fs_other p fs (joinCai d) hq (joinCai_ne_backup d p)]
  rw [searchLoop_congr fs (fix_found p fs).fs _ hcong]
  exact h

/-- Example system site-package directory. -/
def dir0 : FsPath := "/usr".toList

/-- The joined target path inside `dir0`. -/
def p0 : FsPath := joinCai dir0

/-- Example environment: one system directory, a user directory, and no
isolated environment. -/
def env0 : Env :=
  { sitePackages := [dir0]
    userSitePackages := "/u".toList
    venvActive := false
    venvSitePackages := [] }

/-- Example file content containing the bad literal exactly three times. -/
def content3 : List Char :=
  "x = server.params.get(a) + server.params.get(b) + server.params.get(c)".toList

/-- Filesystem holding only the target file, with `content3`, no backup. -/
def fs0 : FS := fun q => if q = p0 then some content3 else none

/-- Empty filesystem: the target file exists nowhere. -/
def fsEmpty : FS := fun _ => none

/-- Content with zero occurrences of the bad literal. -/
def contentOk : List Char := "ok".toList

/-- Filesystem with an already-fixed target file and an existing backup. -/
def fsFixed : FS := fun q =>
  if q = p0 then some contentOk
  else if q = p0 ++ backupSuffix then some ("orig".toList)
  else none

/-- Filesystem with an already-fixed target file and no backup. -/
def fsClean : FS := fun q => if q = p0 then some contentOk else none

/-- C1: for every content with N occurrences of the bad literal, the patch
leaves 0 occurrences of the bad literal and at least N occurrences of the
corrected literal; in the three-occurrence scenario (target found, three bad
occurrences, no pre-existing corrected occurrence) the run succeeds and the
resulting file holds the corrected pattern exactly 3 times and the bad
pattern 0 times. -/
theorem claim_C1 :
    (∀ content : List Char,
      countOccs badLit (replaceAll badLit replLit content) = 0 ∧
      countOccs badLit content ≤ countOccs verifyLit (replaceAll badLit replLit content)) ∧
    (∀ (env : Env) (fs : FS) (p : FsPath),
      find_cai_mcp_file env fs = some p →
      countOccs badLit (readFS fs p) = 3 →
      countOccs verifyLit (readFS fs p) = 0 →
      (fix_cai_mcp_bug env fs).success = true ∧
      (fix_cai_mcp_bug env fs).fs p = some (replaceAll badLit replLit (readFS fs p)) ∧
      countOccs badLit (readFS (fix_cai_mcp_bug env fs).fs p) = 0 ∧
      countOccs verifyLit (readFS (fix_cai_mcp_bug env fs).fs p) = 3) := by
  constructor
  · intro content
    exact ⟨countOccs_bad_replaceAll content, countOccs_verify_ge_bad content⟩
  · intro env fs p hfind h3 h0
    rw [fix_eq_found hfind]
    have hc : ¬ (countOccs badLit (readFS fs p) = 0) := by
      rw [h3]
      omega
    have htgt := fix_found_fs_target p fs
    rw [if_neg hc] at htgt
    refine ⟨fix_found_success p fs, htgt, fix_found_target_clean p fs, ?_⟩
    have hread : readFS (fix_found p fs).fs p = replaceAll badLit replLit (readFS fs p) := by
      unfold readFS
      rw [htgt]
      rfl
    rw [hread]
    have hocc : ¬ HasOcc verifyLit (readFS fs p) :=
      (countOccs_eq_zero_iff verifyLit_ne_nil _).mp h0
    rw [countOccs_verify_replaceAll_eq _ hocc, h3]

/-- Witness for C1: concrete run on a file containing the bad literal
exactly three times. -/
theorem claim_C1_witness :
    (fix_cai_mcp_bug env0 fs0).success = true ∧
    countOccs badLit (readFS (fix_cai_mcp_bug env0 fs0).fs p0) = 0 ∧
    countOccs verifyLit (readFS (fix_cai_mcp_bug env0 fs0).fs p0) = 3 := by
  have h := claim_C1.2 env0 fs0 p0 (by decide) (by decide) (by decide)
  exact ⟨h.1, h.2.2.1, h.2.2.2⟩

/-- C2: if the post-write verification still counts occurrences of the bad
literal in the re-read content, the mismatch is reported as a warning, the
run completes normally (returning a value, no exception), the already-printed
success framing is kept, the written filesystem is left in place, and the
outcome is reported through the returned boolean flag, which is `false`. -/
theorem claim_C2 (before_count : Nat) (fixed_content : List Char) (fs2 : FS)
    (notes : List Note)
    (h : countOccs badLit fixed_content ≠ 0) :
    (fix_after_write before_count fixed_content fs2 notes).success = false ∧
    Note.warnRemain (countOccs badLit fixed_content)
      ∈ (fix_after_write before_count fixed_content fs2 notes).notes ∧
    Note.fixAppliedSuccess ∈ (fix_after_write before_count fixed_content fs2 notes).notes ∧
    (fix_after_write before_count fixed_content fs2 notes).fs = fs2 := by
  unfold fix_after_write
  rw [if_neg h]
  refine ⟨rfl, by simp, by simp, rfl⟩

/-- Witness for C2: verification stage applied to a re-read content that
still contains the bad literal. -/
theorem claim_C2_witness :
    (fix_after_write 1 badLit fsEmpty []).success = false ∧
    Note.warnRemain (countOccs badLit badLit) ∈ (fix_after_write 1 badLit fsEmpty []).notes := by
  have h := claim_C2 1 badLit fsEmpty [] (by decide)
  exact ⟨h.1, h.2.1⟩

/-- C3: when the target is found, an existing backup's content is never
overwritten, and when no backup exists one is created whose content equals
the target's pre-patch content read at the start of the run. -/
theorem claim_C3 (env : Env) (fs : FS) (p : FsPath)
    (h : find_cai_mcp_file env fs = some p) :
    ((fs (p ++ backupSuffix)).isSome = true →
      (fix_cai_mcp_bug env fs).fs (p ++ backupSuffix) = fs (p ++ backupSuffix)) ∧
    (fs (p ++ backupSuffix) = none →
      (fix_cai_mcp_bug env fs).fs (p ++ backupSuffix) = some (readFS fs p)) := by
  rw [fix_eq_found h]
  constructor
  · intro hb
    rw [fix_found_fs_backup, if_pos hb]
  · intro hb
    have hb2 : ¬ ((fs (p ++ backupSuffix)).isSome = true) := by
      rw [hb]
      simp
    rw [fix_found_fs_backup, if_neg hb2]

/-- Witness for C3: on a filesystem without a backup, the run creates the
backup with the original content. -/
theorem claim_C3_witness :
    (fix_cai_mcp_bug env0 fs0).fs (p0 ++ backupSuffix) = some (readFS fs0 p0) :=
  (claim_C3 env0 fs0 p0 (by decide)).2 (by decide)

/-- C4: the locator searches, in order, system site-packages, then the user
site-packages, then (only when an isolated environment is active) the
environment site-packages, returning the first candidate whose joined path
exists, or `none` when no candidate matches. -/
theorem claim_C4 (env : Env) (fs : FS) :
    (∀ f : FsPath,
      find_cai_mcp_file env fs = some f ↔
        ∃ l1 d l2,
          env.sitePackages ++ [env.userSitePackages] ++
            (if env.venvActive then [env.venvSitePackages] else []) = l1 ++ d :: l2 ∧
          f = joinCai d ∧ (fs (joinCai d)).isSome = true ∧
          ∀ d' ∈ l1, (fs (joinCai d')).isSome = false) ∧
    (find_cai_mcp_file env fs = none ↔
      ∀ d ∈ env.sitePackages ++ [env.userSitePackages] ++
          (if env.venvActive then [env.venvSitePackages] else []),
        (fs (joinCai d)).isSome = false) := by
  exact ⟨fun f => searchLoop_some_iff fs _ f, searchLoop_none_iff fs _⟩

/-- Witness for C4: the locator returns the first match on a concrete
environment and filesystem. -/
theorem claim_C4_witness : find_cai_mcp_file env0 fs0 = some p0 :=
  ((claim_C4 env0 fs0).1 p0).mpr
    ⟨[], dir0, ["/u".toList], by decide, rfl, by decide, by simp⟩

/-- C5: running the patch twice equals running it once: after a first run on
a found target, the patched file counts 0 bad occurrences, and a second run
mutates nothing and reports success. -/
theorem claim_C5 (env : Env) (fs : FS) (p : FsPath)
    (h : find_cai_mcp_file env fs = some p) :
    countOccs badLit (readFS (fix_cai_mcp_bug env fs).fs p) = 0 ∧
    (fix_cai_mcp_bug env (fix_cai_mcp_bug env fs).fs).fs = (fix_cai_mcp_bug env fs).fs ∧
    (fix_cai_mcp_bug env (fix_cai_mcp_bug env fs).fs).success = true := by
  rw [fix_eq_found h]
  have hfind2 : find_cai_mcp_file env (fix_found p fs).fs = some p := find_after_fix h
  rw [fix_eq_found hfind2]
  refine ⟨fix_found_target_clean p fs, ?_, fix_found_success p _⟩
  have hb : ((fix_found p fs).fs (p ++ backupSuffix)).isSome = true :=
    fix_found_backup_isSome p fs
  have hz : countOccs badLit (readFS (fix_found p fs).fs p) = 0 :=
    fix_found_target_clean p fs
  exact fix_found_no_mutation p _ hb hz

/-- Witness for C5: a second concrete run reports success without mutation. -/
theorem claim_C5_witness :
    (fix_cai_mcp_bug env0 (fix_cai_mcp_bug env0 fs0).fs).success = true :=
  (claim_C5 env0 fs0 p0 (by decide)).2.2

/-- C6: when no candidate directory contains the target file, the run
reports failure, prints the not-found message, and leaves the filesystem
entirely unchanged (no backup, no write). -/
theorem claim_C6 (env : Env) (fs : FS)
    (h : find_cai_mcp_file env fs = none) :
    (fix_cai_mcp_bug env fs).success = false ∧
    (fix_cai_mcp_bug env fs).fs = fs ∧
    Note.notFound ∈ (fix_cai_mcp_bug env fs).notes := by
  rw [fix_eq_notFound h]
  exact ⟨rfl, rfl, by simp⟩

/-- Witness for C6: run on an empty filesystem. -/
theorem claim_C6_witness :
    (fix_cai_mcp_bug env0 fsEmpty).success = false ∧
    (fix_cai_mcp_bug env0 fsEmpty).fs = fsEmpty := by
  have h := claim_C6 env0 fsEmpty (by decide)
  exact ⟨h.1, h.2.1⟩

/-- C7: when the target is found and already contains 0 occurrences of the
bad literal, the run reports success without writing the target, and when
the backup already exists the whole filesystem is untouched. -/
theorem claim_C7 (env : Env) (fs : FS) (p : FsPath)
    (h : find_cai_mcp_file env fs = some p)
    (hz : countOccs badLit (readFS fs p) = 0) :
    (fix_cai_mcp_bug env fs).success = true ∧
    (fix_cai_mcp_bug env fs).fs p = fs p ∧
    ((fs (p ++ backupSuffix)).isSome = true → (fix_cai_mcp_bug env fs).fs = fs) := by
  rw [fix_eq_found h]
  refine ⟨fix_found_success p fs, ?_, ?_⟩
  · rw [fix_found_fs_target, if_pos hz]
  · intro hb
    exact fix_found_no_mutation p fs hb hz

/-- Witness for C7: run on an already-fixed file with an existing backup. -/
theorem claim_C7_witness :
    (fix_cai_mcp_bug env0 fsFixed).success = true ∧
    (fix_cai_mcp_bug env0 fsFixed).fs = fsFixed := by
  have h := claim_C7 env0 fsFixed p0 (by decide) (by decide)
  exact ⟨h.1, h.2.2 (by decide)⟩

/-- C8: the entry point never sets a non-zero exit code on logical failure:
for either value of the run's boolean flag, `main` returns normally with
exit status 0, printing the failure line on `False` and the summary on
`True`. -/
theorem claim_C8 (env : Env) (fs : FS) :
    (script_main env fs).exitCode = 0 ∧
    (script_main env fs).success = (fix_cai_mcp_bug env fs).success ∧
    ((fix_cai_mcp_bug env fs).success = false →
      Note.fixFailed ∈ (script_main env fs).notes) ∧
    ((fix_cai_mcp_bug env fs).success = true →
      Note.summary ∈ (script_main env fs).notes) := by
  unfold script_main
  by_cases h : (fix_cai_mcp_bug env fs).success = true
  · rw [if_pos h]
    refine ⟨rfl, h.symm, ?_, fun _ => by simp⟩
    intro hf
    rw [hf] at h
    exact absurd h (by simp)
  · rw [if_neg h]
    have hfalse : (fix_cai_mcp_bug env fs).success = false := Bool.eq_false_iff.mpr h
    refine ⟨rfl, hfalse.symm, fun _ => by simp, ?_⟩
    intro ht
    exact absurd ht h

/-- Witness for C8: the failing run exits with status 0 and prints the
failure line. -/
theorem claim_C8_witness :
    (script_main env0 fsEmpty).exitCode = 0 ∧
    Note.fixFailed ∈ (script_main env0 fsEmpty).notes := by
  have h := claim_C8 env0 fsEmpty
  exact ⟨h.1, h.2.2.1 (by decide)⟩

/-- C9: under the model's deterministic re-read, the warning branch is
unreachable: the replacement never leaves or creates an occurrence of the
bad literal, no warning note is ever emitted, and the run returns `false`
exactly when the target file is not found. -/
theorem claim_C9 (env : Env) (fs : FS) :
    (∀ content : List Char, countOccs badLit (replaceAll badLit replLit content) = 0) ∧
    (∀ m : Nat, Note.warnRemain m ∉ (fix_cai_mcp_bug env fs).notes) ∧
    ((fix_cai_mcp_bug env fs).success = false ↔ find_cai_mcp_file env fs = none) := by
  refine ⟨countOccs_bad_replaceAll, ?_, ?_⟩
  · intro m
    cases hfind : find_cai_mcp_file env fs with
    | none =>
      rw [fix_eq_notFound hfind]
      simp
    | some p =>
      rw [fix_eq_found hfind]
      exact fix_found_no_warn p fs m
  · cases hfind : find_cai_mcp_file env fs with
    | none =>
      rw [fix_eq_notFound hfind]
      simp
    | some p =>
      rw [fix_eq_found hfind]
      rw [fix_found_success p fs]
      simp

/-- Witness for C9: the flag is `false` exactly on the not-found run. -/
theorem claim_C9_witness : (fix_cai_mcp_bug env0 fsEmpty).success = false :=
  ((claim_C9 env0 fsEmpty).2.2).mpr (by decide)

/-- C10: whenever the target is found and no backup exists, the backup is
created with the pre-run content before the occurrence count is examined —
including on runs whose target is already fully patched, which still report
success. -/
theorem claim_C10 (env : Env) (fs : FS) (p : FsPath)
    (h : find_cai_mcp_file env fs = some p)
    (hb : fs (p ++ backupSuffix) = none) :
    (fix_cai_mcp_bug env fs).fs (p ++ backupSuffix) = some (readFS fs p) ∧
    (countOccs badLit (readFS fs p) = 0 →
      (fix_cai_mcp_bug env fs).success = true ∧
      (fix_cai_mcp_bug env fs).fs (p ++ backupSuffix) = some (readFS fs p)) := by
  rw [fix_eq_found h]
  have hb2 : ¬ ((fs (p ++ backupSuffix)).isSome = true) := by
    rw [hb]
    simp
  have hmain : (fix_found p fs).fs (p ++ backupSuffix) = some (readFS fs p) := by
    rw [fix_found_fs_backup, if_neg hb2]
  exact ⟨hmain, fun _ => ⟨fix_found_success p fs, hmain⟩⟩

/-- Witness for C10: an already-patched target without a backup still gets a
backup and reports success. -/
theorem claim_C10_witness :
    (fix_cai_mcp_bug env0 fsClean).fs (p0 ++ backupSuffix) = some (readFS fsClean p0) ∧
    (fix_cai_mcp_bug env0 fsClean).success = true := by
  have h := claim_C10 env0 fsClean p0 (by decide) (by decide)
  exact ⟨h.1, (h.2 (by decide)).1⟩
